import Mathlib

/-!
Verification of the telebot update-polling core (`poller.go`, `message_reaction.go`).

The polling loop of `LongPoller.Poll` is embedded as a pure state machine driven
by a script of events: each loop iteration either observes the stop signal or
performs one fetch, whose result (a batch of updates, or an error) is supplied
by the script.  The process-wide hand-off flag (`b.shouldWrireNextUpdate`, read
with `atomic.LoadInt64` once per dispatched update) is modelled as a Boolean
function of the global dispatch index, which encodes the collaborator's
toggling schedule.  Channel sends are recorded as an output trace tagged with
the channel (`dest` or the hand-off channel `b.nextUpdate`).
-/

namespace Telebot

/-- Modelled from the spec: the `Update` struct lives outside the given source
files; the spec describes it as `{ id: integer (monotonic per source),
payload: opaque }`.  The opaque payload is represented by a `Nat`. -/
structure Update where
  id : Int
  payload : Nat
deriving Repr, DecidableEq, Inhabited

/-- The two channels a `LongPoller.Poll` dispatch can write to:
`dest` (the normal output channel) or `handoff` (`b.nextUpdate`). -/
inductive Chan where
  | dest
  | handoff
deriving Repr, DecidableEq, BEq

/-- Result of one `b.getUpdates` call: a batch of updates, or an error. -/
inductive FetchResult where
  | ok (updates : List Update)
  | err
deriving Repr, DecidableEq

/-- State of the `LongPoller.Poll` loop, together with its observable history:
`lastUpdateID` is the `p.LastUpdateID` field, `tick` counts dispatched updates
(the index at which the hand-off flag is sampled), `out` is the trace of
channel sends, and `debugCount` counts `b.debug(err)` calls. -/
structure PollState where
  lastUpdateID : Int
  tick : Nat
  out : List (Chan × Update)
  debugCount : Nat
deriving Repr, DecidableEq

/-- Initial loop state for a poller whose `LastUpdateID` starts at `lastID`. -/
def initPollState (lastID : Int) : PollState :=
  { lastUpdateID := lastID, tick := 0, out := [], debugCount := 0 }

/-- The inner `for _, update := range updates` loop of `LongPoller.Poll`:
for each update, in order, set `p.LastUpdateID = update.ID`, then send the
update to the hand-off channel if the flag reads 1 at that moment and to
`dest` otherwise.  `flag` gives the value of the atomic load at each dispatch
index.  `pushUpdate` is the body for one update; `dispatchBatch` folds it over
the batch. -/
def pushUpdate (flag : Nat → Bool) (st : PollState) (u : Update) : PollState :=
  { lastUpdateID := u.id
    tick := st.tick + 1
    out := st.out ++ [(if flag st.tick then Chan.handoff else Chan.dest, u)]
    debugCount := st.debugCount }

/-- Dispatch a whole fetched batch, one update at a time, in order. -/
def dispatchBatch (flag : Nat → Bool) (st : PollState) : List Update → PollState
  | [] => st
  | u :: rest => dispatchBatch flag (pushUpdate flag st u) rest

/-- One non-stop iteration of the `LongPoller.Poll` loop body: on a fetch
error, call `b.debug(err)` and `continue`; on success, dispatch the batch. -/
def pollStep (flag : Nat → Bool) (st : PollState) : FetchResult → PollState
  | .err => { st with debugCount := st.debugCount + 1 }
  | .ok us => dispatchBatch flag st us

/-- One observed event at the top of the `LongPoller.Poll` loop: either the
non-blocking `select` sees the closed stop channel, or the fetch proceeds and
yields the given result. -/
inductive PollEvent where
  | stopSignal
  | fetch (r : FetchResult)
deriving Repr, DecidableEq

/-- The `LongPoller.Poll` loop run against a finite script of events.  Returns
the final state and whether the loop returned (it returns exactly when it
observes the stop signal; an exhausted script leaves it still running). -/
def pollLoop (flag : Nat → Bool) (st : PollState) : List PollEvent → PollState × Bool
  | [] => (st, false)
  | .stopSignal :: _ => (st, true)
  | .fetch r :: rest => pollLoop flag (pollStep flag st r) rest

/-- The offsets `p.LastUpdateID+1` passed to successive `b.getUpdates` calls
during a run of the loop. -/
def requestedOffsets (flag : Nat → Bool) (st : PollState) : List PollEvent → List Int
  | [] => []
  | .stopSignal :: _ => []
  | .fetch r :: rest => (st.lastUpdateID + 1) :: requestedOffsets flag (pollStep flag st r) rest

/-- All updates returned by successful fetches of the script, in order, up to
the first stop signal (events after the stop are never executed). -/
def fetchedUpdates : List PollEvent → List Update
  | [] => []
  | .stopSignal :: _ => []
  | .fetch (.ok us) :: rest => us ++ fetchedUpdates rest
  | .fetch .err :: rest => fetchedUpdates rest

/-- A batch honours offset semantics for requested offset `o` when every id in
it is at least `o`.  This is the precondition exactly as the claim states it. -/
def batchGe (o : Int) (us : List Update) : Bool :=
  us.all fun u => decide (o ≤ u.id)

/-- A batch of updates is listed in non-decreasing id order. -/
def nonDecrU : List Update → Bool
  | [] => true
  | [_] => true
  | u :: v :: rest => decide (u.id ≤ v.id) && nonDecrU (v :: rest)

/-- A batch is well-formed for requested offset `o`: ids at least `o` and
listed in non-decreasing order. -/
def batchOk (o : Int) (us : List Update) : Bool :=
  batchGe o us && nonDecrU us

/-- The Source honours the literal offset semantics (ids at least the requested
offset) at every fetch of the script, relative to the evolving loop state. -/
def scriptGe (flag : Nat → Bool) (st : PollState) : List PollEvent → Bool
  | [] => true
  | .stopSignal :: _ => true
  | .fetch .err :: rest => scriptGe flag (pollStep flag st .err) rest
  | .fetch (.ok us) :: rest =>
      batchGe (st.lastUpdateID + 1) us && scriptGe flag (pollStep flag st (.ok us)) rest

/-- The Source honours offset semantics and returns every batch in
non-decreasing id order, at every fetch of the script. -/
def scriptOk (flag : Nat → Bool) (st : PollState) : List PollEvent → Bool
  | [] => true
  | .stopSignal :: _ => true
  | .fetch .err :: rest => scriptOk flag (pollStep flag st .err) rest
  | .fetch (.ok us) :: rest =>
      batchOk (st.lastUpdateID + 1) us && scriptOk flag (pollStep flag st (.ok us)) rest

/-- A list of integers is non-decreasing. -/
def nonDecr : List Int → Bool
  | [] => true
  | [_] => true
  | a :: b :: rest => decide (a ≤ b) && nonDecr (b :: rest)

/-- The channel tags a run of consecutive dispatches receives, starting at
dispatch index `t`: the update at index `t + i` goes to the hand-off channel
exactly when the flag reads true at that index. -/
def tag (flag : Nat → Bool) (t : Nat) : List Update → List (Chan × Update)
  | [] => []
  | u :: rest => (if flag t then Chan.handoff else Chan.dest, u) :: tag flag (t + 1) rest

/-- Ids appearing on the combined output trace, in dispatch order. -/
def outIds (st : PollState) : List Int :=
  st.out.map fun e => e.2.id

lemma tag_append (flag : Nat → Bool) (t : Nat) (a b : List Update) :
    tag flag t (a ++ b) = tag flag t a ++ tag flag (t + a.length) b := by
  induction a generalizing t with
  | nil => simp [tag]
  | cons u rest ih =>
    have h : t + 1 + rest.length = t + (u :: rest).length := by
      simp only [List.length_cons]; omega
    calc tag flag t (u :: rest ++ b)
        = (if flag t then Chan.handoff else Chan.dest, u) :: tag flag (t + 1) (rest ++ b) := rfl
      _ = (if flag t then Chan.handoff else Chan.dest, u) ::
            (tag flag (t + 1) rest ++ tag flag (t + 1 + rest.length) b) := by rw [ih]
      _ = tag flag t (u :: rest) ++ tag flag (t + (u :: rest).length) b := by
            rw [h]; rfl

lemma tag_map_snd (flag : Nat → Bool) (t : Nat) (l : List Update) :
    (tag flag t l).map Prod.snd = l := by
  induction l generalizing t with
  | nil => rfl
  | cons u rest ih => simp [tag, ih]

lemma dispatchBatch_out (flag : Nat → Bool) (us : List Update) (st : PollState) :
    (dispatchBatch flag st us).out = st.out ++ tag flag st.tick us := by
  induction us generalizing st with
  | nil => simp [dispatchBatch, tag]
  | cons u rest ih => simp [dispatchBatch, tag, ih, pushUpdate]

lemma dispatchBatch_tick (flag : Nat → Bool) (us : List Update) (st : PollState) :
    (dispatchBatch flag st us).tick = st.tick + us.length := by
  induction us generalizing st with
  | nil => simp [dispatchBatch]
  | cons u rest ih => simp [dispatchBatch, ih, pushUpdate]; omega

lemma dispatchBatch_debugCount (flag : Nat → Bool) (us : List Update) (st : PollState) :
    (dispatchBatch flag st us).debugCount = st.debugCount := by
  induction us generalizing st with
  | nil => rfl
  | cons u rest ih => simp [dispatchBatch, ih, pushUpdate]

lemma dispatchBatch_lastUpdateID (flag : Nat → Bool) (us : List Update) (st : PollState) :
    (dispatchBatch flag st us).lastUpdateID = (us.map Update.id).getLastD st.lastUpdateID := by
  induction us generalizing st with
  | nil => rfl
  | cons u rest ih =>
    have h1 : dispatchBatch flag st (u :: rest) = dispatchBatch flag (pushUpdate flag st u) rest := rfl
    rw [h1, ih, List.map_cons, List.getLastD_cons]; rfl

lemma pollLoop_out (flag : Nat → Bool) (evs : List PollEvent) (st : PollState) :
    (pollLoop flag st evs).1.out = st.out ++ tag flag st.tick (fetchedUpdates evs) := by
  induction evs generalizing st with
  | nil => simp [pollLoop, fetchedUpdates, tag]
  | cons e rest ih =>
    cases e with
    | stopSignal => simp [pollLoop, fetchedUpdates, tag]
    | fetch r =>
      cases r with
      | err => simpa [pollLoop, pollStep, fetchedUpdates] using ih _
      | ok us =>
        simp only [pollLoop, pollStep, fetchedUpdates, ih, dispatchBatch_out,
          dispatchBatch_tick, tag_append, List.append_assoc]

lemma batchGe_mem {o : Int} {us : List Update} (h : batchGe o us = true) :
    ∀ u ∈ us, o ≤ u.id := by
  intro u hu
  have := List.all_eq_true.mp h u hu
  simpa using this

lemma nonDecrU_cons {u : Update} {l : List Update} (h : nonDecrU (u :: l) = true) :
    nonDecrU l = true ∧ ∀ w ∈ l, u.id ≤ w.id := by
  induction l generalizing u with
  | nil => simp [nonDecrU]
  | cons v rest ih =>
    simp only [nonDecrU, Bool.and_eq_true, decide_eq_true_eq] at h
    obtain ⟨huv, hrest⟩ := h
    obtain ⟨_, hall⟩ := ih hrest
    refine ⟨hrest, ?_⟩
    intro w hw
    rcases List.mem_cons.mp hw with hw | hw
    · exact hw ▸ huv
    · exact le_trans huv (hall w hw)

lemma nonDecr_snoc {l : List Int} {a : Int} (h : nonDecr l = true)
    (hall : ∀ x ∈ l, x ≤ a) : nonDecr (l ++ [a]) = true := by
  induction l with
  | nil => simp [nonDecr]
  | cons x rest ih =>
    cases rest with
    | nil =>
      have hx := hall x (List.mem_singleton.mpr rfl)
      simp [nonDecr, hx]
    | cons y rest2 =>
      simp only [nonDecr, Bool.and_eq_true, decide_eq_true_eq] at h
      simp only [List.cons_append, nonDecr, Bool.and_eq_true, decide_eq_true_eq]
      refine ⟨h.1, ?_⟩
      have := ih h.2 (fun x hx => hall x (List.mem_cons_of_mem _ hx))
      simpa using this

lemma outIds_push (flag : Nat → Bool) (st : PollState) (u : Update) :
    outIds (pushUpdate flag st u) = outIds st ++ [u.id] := by
  simp [outIds, pushUpdate]

lemma dispatchBatch_inv (flag : Nat → Bool) (us : List Update) (st : PollState)
    (hall : ∀ u ∈ us, st.lastUpdateID ≤ u.id)
    (hchain : nonDecrU us = true)
    (hout : nonDecr (outIds st) = true)
    (hbnd : ∀ i ∈ outIds st, i ≤ st.lastUpdateID) :
    nonDecr (outIds (dispatchBatch flag st us)) = true ∧
    (∀ i ∈ outIds (dispatchBatch flag st us), i ≤ (dispatchBatch flag st us).lastUpdateID) ∧
    st.lastUpdateID ≤ (dispatchBatch flag st us).lastUpdateID := by
  induction us generalizing st with
  | nil => exact ⟨hout, hbnd, le_refl _⟩
  | cons u rest ih =>
    have hle : st.lastUpdateID ≤ u.id := hall u (List.mem_cons_self u rest)
    obtain ⟨hchain', hall'⟩ := nonDecrU_cons hchain
    have hlast : (pushUpdate flag st u).lastUpdateID = u.id := rfl
    have hstep := ih (pushUpdate flag st u)
      (by rw [hlast]; exact hall') hchain'
      (by rw [outIds_push]
          exact nonDecr_snoc hout (fun x hx => le_trans (hbnd x hx) hle))
      (by rw [outIds_push, hlast]
          intro i hi
          rcases List.mem_append.mp hi with hi | hi
          · exact le_trans (hbnd i hi) hle
          · simp only [List.mem_singleton] at hi
            exact le_of_eq hi)
    have heq : dispatchBatch flag st (u :: rest) = dispatchBatch flag (pushUpdate flag st u) rest := rfl
    rw [heq]
    exact ⟨hstep.1, hstep.2.1, le_trans hle hstep.2.2⟩

lemma pollLoop_inv (flag : Nat → Bool) (evs : List PollEvent) (st : PollState)
    (hs : scriptOk flag st evs = true)
    (hout : nonDecr (outIds st) = true)
    (hbnd : ∀ i ∈ outIds st, i ≤ st.lastUpdateID) :
    nonDecr (outIds (pollLoop flag st evs).1) = true ∧
    st.lastUpdateID ≤ (pollLoop flag st evs).1.lastUpdateID := by
  induction evs generalizing st with
  | nil => exact ⟨hout, le_refl _⟩
  | cons e rest ih =>
    cases e with
    | stopSignal => exact ⟨hout, le_refl _⟩
    | fetch r =>
      cases r with
      | err =>
        have hs' : scriptOk flag (pollStep flag st .err) rest = true := hs
        exact ih _ hs' hout hbnd
      | ok us =>
        simp only [scriptOk, Bool.and_eq_true] at hs
        obtain ⟨hb, hs'⟩ := hs
        simp only [batchOk, Bool.and_eq_true] at hb
        have hall : ∀ u ∈ us, st.lastUpdateID ≤ u.id := by
          intro u hu
          have := batchGe_mem hb.1 u hu
          omega
        have hd := dispatchBatch_inv flag us st hall hb.2 hout hbnd
        have hrest := ih (dispatchBatch flag st us) hs' hd.1 hd.2.1
        exact ⟨hrest.1, le_trans hd.2.2 hrest.2⟩

lemma getLastD_mem_or (l : List Int) (d : Int) :
    l.getLastD d = d ∨ l.getLastD d ∈ l := by
  induction l generalizing d with
  | nil => exact Or.inl rfl
  | cons a rest ih =>
    rw [List.getLastD_cons]
    rcases ih a with h | h
    · exact Or.inr (by rw [h]; exact List.mem_cons_self a rest)
    · exact Or.inr (List.mem_cons_of_mem a h)

lemma le_foldlMaxId (us : List Update) (d : Int) :
    d ≤ us.foldl (fun m u => max m u.id) d := by
  induction us generalizing d with
  | nil => exact le_refl d
  | cons u rest ih => exact le_trans (le_max_left d u.id) (ih (max d u.id))

lemma foldlMaxId_le {us : List Update} {b : Int} (d : Int) (hd : d ≤ b)
    (h : ∀ u ∈ us, u.id ≤ b) : us.foldl (fun m u => max m u.id) d ≤ b := by
  induction us generalizing d with
  | nil => exact hd
  | cons u rest ih =>
    exact ih (max d u.id) (max_le hd (h u (List.mem_cons_self u rest)))
      (fun w hw => h w (List.mem_cons_of_mem u hw))

lemma mem_le_foldlMaxId {us : List Update} {u : Update} (d : Int) (hu : u ∈ us) :
    u.id ≤ us.foldl (fun m u => max m u.id) d := by
  induction us generalizing d with
  | nil => exact absurd hu (List.not_mem_nil u)
  | cons v rest ih =>
    have hfold : (v :: rest).foldl (fun m u => max m u.id) d
        = rest.foldl (fun m u => max m u.id) (max d v.id) := rfl
    rw [hfold]
    rcases List.mem_cons.mp hu with h | h
    · rw [h]; exact le_trans (le_max_right d v.id) (le_foldlMaxId rest (max d v.id))
    · exact ih (max d v.id) h

lemma mem_le_getLastD {us : List Update} (d : Int) (hch : nonDecrU us = true) :
    ∀ u ∈ us, u.id ≤ (us.map Update.id).getLastD d := by
  induction us generalizing d with
  | nil => intro u hu; exact absurd hu (List.not_mem_nil u)
  | cons v rest ih =>
    obtain ⟨hrest, hall⟩ := nonDecrU_cons hch
    intro u hu
    rw [List.map_cons, List.getLastD_cons]
    rcases List.mem_cons.mp hu with h | h
    · subst h
      rcases getLastD_mem_or (rest.map Update.id) u.id with h1 | h1
      · rw [h1]
      · obtain ⟨w, hw, hwi⟩ := List.mem_map.mp h1
        exact hwi ▸ hall w hw
    · exact ih v.id hrest u h

lemma dispatchBatch_last_mono (flag : Nat → Bool) (us : List Update) (st : PollState)
    (h : batchGe (st.lastUpdateID + 1) us = true) :
    st.lastUpdateID ≤ (dispatchBatch flag st us).lastUpdateID := by
  rw [dispatchBatch_lastUpdateID]
  rcases getLastD_mem_or (us.map Update.id) st.lastUpdateID with h1 | h1
  · rw [h1]
  · obtain ⟨u, hu, hui⟩ := List.mem_map.mp h1
    have := batchGe_mem h u hu
    omega

lemma dispatchBatch_last_eq_max (flag : Nat → Bool) (us : List Update) (st : PollState)
    (h : batchOk (st.lastUpdateID + 1) us = true) :
    (dispatchBatch flag st us).lastUpdateID
      = us.foldl (fun m u => max m u.id) st.lastUpdateID := by
  simp only [batchOk, Bool.and_eq_true] at h
  apply le_antisymm
  · rw [dispatchBatch_lastUpdateID]
    rcases getLastD_mem_or (us.map Update.id) st.lastUpdateID with h1 | h1
    · rw [h1]; exact le_foldlMaxId us st.lastUpdateID
    · obtain ⟨u, hu, hui⟩ := List.mem_map.mp h1
      exact hui ▸ mem_le_foldlMaxId st.lastUpdateID hu
  · refine foldlMaxId_le st.lastUpdateID (dispatchBatch_last_mono flag us st h.1) ?_
    intro u hu
    rw [dispatchBatch_lastUpdateID]
    exact mem_le_getLastD st.lastUpdateID h.2 u hu

lemma pollLoop_lastID_mono (flag : Nat → Bool) (evs : List PollEvent) (st : PollState)
    (hs : scriptOk flag st evs = true) :
    st.lastUpdateID ≤ (pollLoop flag st evs).1.lastUpdateID := by
  induction evs generalizing st with
  | nil => exact le_refl _
  | cons e rest ih =>
    cases e with
    | stopSignal => exact le_refl _
    | fetch r =>
      cases r with
      | err => exact ih (pollStep flag st .err) hs
      | ok us =>
        simp only [scriptOk, Bool.and_eq_true] at hs
        have h1 : batchGe (st.lastUpdateID + 1) us = true := by
          have := hs.1
          simp only [batchOk, Bool.and_eq_true] at this
          exact this.1
        exact le_trans (dispatchBatch_last_mono flag us st h1)
          (ih (pollStep flag st (.ok us)) hs.2)

lemma chan_beq_dd : (Chan.dest == Chan.dest) = true := rfl

lemma chan_beq_dh : (Chan.dest == Chan.handoff) = false := rfl

lemma chan_beq_hd : (Chan.handoff == Chan.dest) = false := rfl

lemma chan_beq_hh : (Chan.handoff == Chan.handoff) = true := rfl

lemma tag_filter_past (l : List Update) (k t : Nat) (h : k < t) :
    ((tag (fun x => x == k) t l).filter fun e => e.1 == Chan.handoff) = [] ∧
    ((tag (fun x => x == k) t l).filter fun e => e.1 == Chan.dest)
      = tag (fun x => x == k) t l := by
  induction l generalizing t with
  | nil => exact ⟨rfl, rfl⟩
  | cons u rest ih =>
    have hne : (t == k) = false := by
      simp only [beq_eq_false_iff_ne, ne_eq]
      omega
    obtain ⟨ih1, ih2⟩ := ih (t + 1) (by omega)
    constructor
    · simp [tag, hne, List.filter, ih1, chan_beq_dh]
    · simp [tag, hne, List.filter, ih2, chan_beq_dd]

lemma tag_filter_at (l : List Update) (k t : Nat) (ht : t ≤ k) :
    (((tag (fun x => x == k) t l).filter fun e => e.1 == Chan.handoff).map Prod.snd)
      = (l[k - t]?).toList ∧
    (((tag (fun x => x == k) t l).filter fun e => e.1 == Chan.dest).map Prod.snd)
      = l.eraseIdx (k - t) := by
  induction l generalizing t with
  | nil => exact ⟨rfl, rfl⟩
  | cons u rest ih =>
    by_cases hkt : t = k
    · subst hkt
      have hz : t - t = 0 := by omega
      have heq : (t == t) = true := by simp
      obtain ⟨hpast1, hpast2⟩ := tag_filter_past rest t (t + 1) (by omega)
      constructor
      · simp [tag, heq, List.filter, hpast1, hz, chan_beq_hh]
      · simp [tag, heq, List.filter, hpast2, hz, chan_beq_hd, tag_map_snd]
    · have htlt : t < k := lt_of_le_of_ne ht hkt
      have hne : (t == k) = false := by
        simp only [beq_eq_false_iff_ne, ne_eq]
        omega
      have hm : k - t = (k - (t + 1)) + 1 := by omega
      obtain ⟨ih1, ih2⟩ := ih (t + 1) (by omega)
      constructor
      · rw [hm]
        simp [tag, hne, List.filter, chan_beq_dh, ih1]
      · rw [hm]
        simp [tag, hne, List.filter, chan_beq_dd, ih2]

/-- C1 counterexample: the Source honours the claim's literal precondition
(every returned id is at least the requested offset) on the script that first
returns the batch `[5, 3]` at requested offset 1 and then the batch `[4]` at
requested offset 4, yet the ids observed on the combined channels are
`[5, 3, 4]`, which is not non-decreasing. -/
theorem basic_poller_order_cex :
    scriptGe (fun _ => false) (initPollState 0)
      [PollEvent.fetch (FetchResult.ok [⟨5, 0⟩, ⟨3, 0⟩]),
       PollEvent.fetch (FetchResult.ok [⟨4, 0⟩]), PollEvent.stopSignal] = true ∧
    outIds (pollLoop (fun _ => false) (initPollState 0)
      [PollEvent.fetch (FetchResult.ok [⟨5, 0⟩, ⟨3, 0⟩]),
       PollEvent.fetch (FetchResult.ok [⟨4, 0⟩]), PollEvent.stopSignal]).1 = [5, 3, 4] ∧
    nonDecr (outIds (pollLoop (fun _ => false) (initPollState 0)
      [PollEvent.fetch (FetchResult.ok [⟨5, 0⟩, ⟨3, 0⟩]),
       PollEvent.fetch (FetchResult.ok [⟨4, 0⟩]), PollEvent.stopSignal]).1) = false := by
  decide

/-- C1 (amended): for every run of the `LongPoller.Poll` loop, the sequence of
updates observed on the combined (output and hand-off) channels is exactly the
concatenation of the fetched batches, in order — each update delivered once to
exactly one channel, no duplicates, no omissions — and, provided the Source
honours offset semantics and returns every batch in non-decreasing id order,
the observed ids are non-decreasing. -/
theorem basic_poller_delivery (flag : Nat → Bool) (n : Int) (evs : List PollEvent)
    (hs : scriptOk flag (initPollState n) evs = true) :
    ((pollLoop flag (initPollState n) evs).1.out).map Prod.snd = fetchedUpdates evs ∧
    nonDecr (outIds (pollLoop flag (initPollState n) evs).1) = true := by
  constructor
  · rw [pollLoop_out]
    simp [initPollState, tag_map_snd]
  · exact (pollLoop_inv flag evs (initPollState n) hs (by rfl)
      (by intro i hi; simp [initPollState, outIds] at hi)).1

/-- C1 witness: a concrete well-formed script exercising the amended claim. -/
theorem basic_poller_delivery_witness :
    scriptOk (fun _ => false) (initPollState 0)
      [PollEvent.fetch (FetchResult.ok [⟨1, 0⟩, ⟨2, 0⟩]), PollEvent.fetch FetchResult.err,
       PollEvent.fetch (FetchResult.ok [⟨4, 0⟩]), PollEvent.stopSignal] = true ∧
    ((pollLoop (fun _ => false) (initPollState 0)
      [PollEvent.fetch (FetchResult.ok [⟨1, 0⟩, ⟨2, 0⟩]), PollEvent.fetch FetchResult.err,
       PollEvent.fetch (FetchResult.ok [⟨4, 0⟩]), PollEvent.stopSignal]).1.out).map Prod.snd
      = fetchedUpdates
          [PollEvent.fetch (FetchResult.ok [⟨1, 0⟩, ⟨2, 0⟩]), PollEvent.fetch FetchResult.err,
           PollEvent.fetch (FetchResult.ok [⟨4, 0⟩]), PollEvent.stopSignal] ∧
    nonDecr (outIds (pollLoop (fun _ => false) (initPollState 0)
      [PollEvent.fetch (FetchResult.ok [⟨1, 0⟩, ⟨2, 0⟩]), PollEvent.fetch FetchResult.err,
       PollEvent.fetch (FetchResult.ok [⟨4, 0⟩]), PollEvent.stopSignal]).1) = true := by
  refine ⟨by decide, ?_⟩
  exact basic_poller_delivery (fun _ => false) 0
    [PollEvent.fetch (FetchResult.ok [⟨1, 0⟩, ⟨2, 0⟩]), PollEvent.fetch FetchResult.err,
     PollEvent.fetch (FetchResult.ok [⟨4, 0⟩]), PollEvent.stopSignal] (by decide)

/-- C2 counterexample: the batch `[5, 3]` honours offset semantics at requested
offset 1, but after processing it `LastUpdateID` is 3 — the id of the last
update of the batch — while the maximum id observed in the batch is 5; the
claim that `lastSeenID` equals the batch maximum (and never decreases, as it
moves 0 to 5 to 3 here) is false. -/
theorem basic_poller_lastid_cex :
    batchGe ((initPollState 0).lastUpdateID + 1) [⟨5, 0⟩, ⟨3, 0⟩] = true ∧
    (pollStep (fun _ => false) (initPollState 0)
      (FetchResult.ok [⟨5, 0⟩, ⟨3, 0⟩])).lastUpdateID = 3 ∧
    ([(⟨5, 0⟩ : Update), ⟨3, 0⟩].foldl (fun m u => max m u.id)
      (initPollState 0).lastUpdateID) = 5 ∧
    (3 : Int) ≠ 5 := by
  decide

/-- C2 (amended): after a successful fetch `LastUpdateID` equals the id of the
last update of the batch (unchanged for an empty batch), which coincides with
the maximum id observed in the batch whenever the Source returns the batch in
non-decreasing order with ids at least the requested offset; the next fetch
requests that value plus one; a failed fetch leaves `LastUpdateID` unchanged;
and under the same Source precondition `LastUpdateID` never decreases across
the polling loop. -/
theorem basic_poller_lastid_tracking (flag : Nat → Bool) (st : PollState)
    (us : List Update) (r : FetchResult) (rest evs : List PollEvent) :
    (pollStep flag st (FetchResult.ok us)).lastUpdateID
      = (us.map Update.id).getLastD st.lastUpdateID ∧
    requestedOffsets flag st (PollEvent.fetch r :: rest)
      = (st.lastUpdateID + 1) :: requestedOffsets flag (pollStep flag st r) rest ∧
    (requestedOffsets flag (pollStep flag st (FetchResult.ok us))
        (PollEvent.fetch r :: rest)).head?
      = some ((us.map Update.id).getLastD st.lastUpdateID + 1) ∧
    (pollStep flag st FetchResult.err).lastUpdateID = st.lastUpdateID ∧
    (batchOk (st.lastUpdateID + 1) us = true →
      (pollStep flag st (FetchResult.ok us)).lastUpdateID
        = us.foldl (fun m u => max m u.id) st.lastUpdateID) ∧
    (scriptOk flag st evs = true →
      st.lastUpdateID ≤ (pollLoop flag st evs).1.lastUpdateID) := by
  refine ⟨dispatchBatch_lastUpdateID flag us st, rfl, ?_, rfl, ?_, ?_⟩
  · show some ((pollStep flag st (FetchResult.ok us)).lastUpdateID + 1) = _
    rw [show (pollStep flag st (FetchResult.ok us)).lastUpdateID
      = (us.map Update.id).getLastD st.lastUpdateID from dispatchBatch_lastUpdateID flag us st]
  · exact dispatchBatch_last_eq_max flag us st
  · exact pollLoop_lastID_mono flag evs st

/-- C2 witness: a concrete sorted batch exercising the amended claim. -/
theorem basic_poller_lastid_tracking_witness :
    batchOk ((initPollState 0).lastUpdateID + 1) [(⟨1, 0⟩ : Update), ⟨2, 0⟩] = true ∧
    scriptOk (fun _ => false) (initPollState 0)
      [PollEvent.fetch (FetchResult.ok [⟨1, 0⟩, ⟨2, 0⟩]), PollEvent.stopSignal] = true ∧
    (pollStep (fun _ => false) (initPollState 0)
        (FetchResult.ok [⟨1, 0⟩, ⟨2, 0⟩])).lastUpdateID
      = ([(⟨1, 0⟩ : Update), ⟨2, 0⟩].foldl (fun m u => max m u.id)
          (initPollState 0).lastUpdateID) ∧
    (initPollState 0).lastUpdateID ≤ (pollLoop (fun _ => false) (initPollState 0)
      [PollEvent.fetch (FetchResult.ok [⟨1, 0⟩, ⟨2, 0⟩]),
       PollEvent.stopSignal]).1.lastUpdateID := by
  refine ⟨by decide, by decide, ?_, ?_⟩
  · exact (basic_poller_lastid_tracking (fun _ => false) (initPollState 0)
      [⟨1, 0⟩, ⟨2, 0⟩] FetchResult.err [] []).2.2.2.2.1 (by decide)
  · exact (basic_poller_lastid_tracking (fun _ => false) (initPollState 0)
      [⟨1, 0⟩, ⟨2, 0⟩] FetchResult.err []
      [PollEvent.fetch (FetchResult.ok [⟨1, 0⟩, ⟨2, 0⟩]),
       PollEvent.stopSignal]).2.2.2.2.2 (by decide)

/-- C4: the hand-off flag is sampled independently at every single dispatch
(the output trace is the batch stream tagged by the flag value at each
dispatch index), so a flag that reads true at exactly one dispatch index `k`
diverts exactly the `k`-th fetched update to the hand-off channel and sends
every other update to the normal output channel, regardless of batch sizes. -/
theorem handoff_flag_per_update (flag : Nat → Bool) (n : Int) (evs : List PollEvent)
    (k : Nat) (hk : k < (fetchedUpdates evs).length) :
    (pollLoop flag (initPollState n) evs).1.out = tag flag 0 (fetchedUpdates evs) ∧
    (((pollLoop (fun t => t == k) (initPollState n) evs).1.out.filter
        fun e => e.1 == Chan.handoff).map Prod.snd)
      = ((fetchedUpdates evs)[k]?).toList ∧
    ((fetchedUpdates evs)[k]?).toList.length = 1 ∧
    (((pollLoop (fun t => t == k) (initPollState n) evs).1.out.filter
        fun e => e.1 == Chan.dest).map Prod.snd)
      = (fetchedUpdates evs).eraseIdx k := by
  have hout : ∀ g : Nat → Bool,
      (pollLoop g (initPollState n) evs).1.out = tag g 0 (fetchedUpdates evs) := by
    intro g
    rw [pollLoop_out]
    simp [initPollState]
  have hat := tag_filter_at (fetchedUpdates evs) k 0 (Nat.zero_le k)
  rw [Nat.sub_zero] at hat
  refine ⟨hout flag, ?_, ?_, ?_⟩
  · rw [hout (fun t => t == k)]
    exact hat.1
  · rw [List.getElem?_eq_getElem hk]
    rfl
  · rw [hout (fun t => t == k)]
    exact hat.2

/-- C4 witness: in a three-update batch with the flag true exactly at dispatch
index 1, only the second update is diverted. -/
theorem handoff_flag_per_update_witness :
    1 < (fetchedUpdates [PollEvent.fetch (FetchResult.ok [⟨1, 0⟩, ⟨2, 0⟩, ⟨3, 0⟩]),
          PollEvent.stopSignal]).length ∧
    (((pollLoop (fun t => t == 1) (initPollState 0)
        [PollEvent.fetch (FetchResult.ok [⟨1, 0⟩, ⟨2, 0⟩, ⟨3, 0⟩]),
         PollEvent.stopSignal]).1.out.filter
        fun e => e.1 == Chan.handoff).map Prod.snd) = [⟨2, 0⟩] ∧
    (((pollLoop (fun t => t == 1) (initPollState 0)
        [PollEvent.fetch (FetchResult.ok [⟨1, 0⟩, ⟨2, 0⟩, ⟨3, 0⟩]),
         PollEvent.stopSignal]).1.out.filter
        fun e => e.1 == Chan.dest).map Prod.snd) = [⟨1, 0⟩, ⟨3, 0⟩] := by
  have h := handoff_flag_per_update (fun t => t == 1) 0
    [PollEvent.fetch (FetchResult.ok [⟨1, 0⟩, ⟨2, 0⟩, ⟨3, 0⟩]), PollEvent.stopSignal]
    1 (by decide)
  exact ⟨by decide, h.2.1.trans (by decide), h.2.2.2.trans (by decide)⟩

/-- C5: a fetch error only reports to the diagnostic hook (`b.debug`): the
state change of an error iteration is exactly a debug-count increment — no
dispatch, `LastUpdateID` unchanged — and the loop immediately proceeds to the
next iteration; the loop returns exactly when the script contains the stop
signal, so no fetch error ever terminates it. -/
theorem basic_poller_error_retry (flag : Nat → Bool) (st : PollState)
    (rest evs : List PollEvent) :
    pollStep flag st FetchResult.err = { st with debugCount := st.debugCount + 1 } ∧
    pollLoop flag st (PollEvent.fetch FetchResult.err :: rest)
      = pollLoop flag { st with debugCount := st.debugCount + 1 } rest ∧
    ((pollLoop flag st evs).2 = true ↔ PollEvent.stopSignal ∈ evs) := by
  refine ⟨rfl, rfl, ?_⟩
  induction evs generalizing st with
  | nil => simp [pollLoop]
  | cons e rest2 ih =>
    cases e with
    | stopSignal => simp [pollLoop]
    | fetch r =>
      rw [show pollLoop flag st (PollEvent.fetch r :: rest2)
        = pollLoop flag (pollStep flag st r) rest2 from rfl]
      rw [ih (pollStep flag st r)]
      simp

/-- One relay-loop item of `MiddlewarePoller.Poll`: the local copy `upd` is
received from the `middle` channel, `p.Filter(&upd)` is called with a pointer
to that copy, and the copy — as it stands after the call — is sent to `dest`
exactly when the call returned true.  A Go `func(*Update) bool` is modelled as
a function returning the verdict together with the value of the update after
the call, so mutation through the pointer is observable. -/
def relayStep (filter : Update → Bool × Update) (u : Update) : Option Update :=
  match filter u with
  | (true, v) => some v
  | (false, _) => none

/-- The relay loop of `MiddlewarePoller.Poll` applied to a finite stream of
items arriving on the `middle` channel, in arrival order. -/
def relayRun (filter : Update → Bool × Update) : List Update → List Update
  | [] => []
  | u :: rest =>
      match relayStep filter u with
      | some v => v :: relayRun filter rest
      | none => relayRun filter rest

/-- A pure Go predicate: it inspects the update and never mutates it. -/
def pureFilter (p : Update → Bool) : Update → Bool × Update :=
  fun u => (p u, u)

/-- The updates a `LongPoller` run writes to its output channel — the stream a
wrapping `MiddlewarePoller` receives on its relay channel `middle`. -/
def destStream (st : PollState) : List Update :=
  (st.out.filter fun e => e.1 == Chan.dest).map Prod.snd

/-- End-to-end output of a `MiddlewarePoller` with pure predicate `p` wrapping
a `LongPoller` run. -/
def middlewareOutput (p : Update → Bool) (flag : Nat → Bool) (n : Int)
    (evs : List PollEvent) : List Update :=
  relayRun (pureFilter p) (destStream (pollLoop flag (initPollState n) evs).1)

/-- Progress of the goroutine launched by `MiddlewarePoller.Poll`: it is
running `p.Poller.Poll`, that call has returned, or it has also executed
`close(stopConfirm)`. -/
inductive InnerPhase where
  | running
  | returned
  | confirmClosed
deriving Repr, DecidableEq

/-- Progress of the outer `MiddlewarePoller.Poll` relay loop: looping in the
`select`, blocked on `<-stopConfirm` after `close(stopPoller)`, or returned. -/
inductive OuterPhase where
  | looping
  | waiting
  | returned
deriving Repr, DecidableEq

/-- A configuration of the two threads of `MiddlewarePoller.Poll`: the outer
stop channel (closed by the environment), the `stopPoller` and `stopConfirm`
channels, the two thread phases, the buffered `middle` channel contents, and
the trace of updates sent to `dest`. -/
structure MWState where
  stopOuter : Bool
  stopPollerClosed : Bool
  stopConfirmClosed : Bool
  inner : InnerPhase
  outer : OuterPhase
  middle : List Update
  dest : List Update
deriving Repr, DecidableEq

/-- Configuration at the start of `MiddlewarePoller.Poll`, after the channels
are allocated and the goroutine is launched. -/
def mwInit : MWState :=
  { stopOuter := false
    stopPollerClosed := false
    stopConfirmClosed := false
    inner := InnerPhase.running
    outer := OuterPhase.looping
    middle := []
    dest := [] }

/-- Interleaved small-step semantics of `MiddlewarePoller.Poll` with relay
capacity `cap` and filter `f`: the environment may close the outer stop
channel; the wrapped poller may buffer an update (respecting capacity) or have
its `Poll` call return, after which `close(stopConfirm)` runs; the outer loop
may take the stop branch (`close(stopPoller)`, then wait), relay one buffered
item through the filter, or — once `stopConfirm` is closed — return. -/
inductive MWStep (cap : Nat) (f : Update → Bool × Update) : MWState → MWState → Prop where
  | envStop (s : MWState) :
      MWStep cap f s { s with stopOuter := true }
  | innerSend (s : MWState) (u : Update) (hin : s.inner = InnerPhase.running)
      (hcap : s.middle.length < cap) :
      MWStep cap f s { s with middle := s.middle ++ [u] }
  | innerReturn (s : MWState) (hin : s.inner = InnerPhase.running) :
      MWStep cap f s { s with inner := InnerPhase.returned }
  | innerConfirm (s : MWState) (hin : s.inner = InnerPhase.returned) :
      MWStep cap f s { s with inner := InnerPhase.confirmClosed, stopConfirmClosed := true }
  | outerStop (s : MWState) (hout : s.outer = OuterPhase.looping) (hsig : s.stopOuter = true) :
      MWStep cap f s { s with stopPollerClosed := true, outer := OuterPhase.waiting }
  | outerRelay (s : MWState) (u : Update) (rest : List Update)
      (hout : s.outer = OuterPhase.looping) (hm : s.middle = u :: rest) :
      MWStep cap f s { s with middle := rest, dest := s.dest ++ (relayStep f u).toList }
  | outerReturn (s : MWState) (hout : s.outer = OuterPhase.waiting)
      (hconf : s.stopConfirmClosed = true) :
      MWStep cap f s { s with outer := OuterPhase.returned }

/-- Configurations reachable from the start of `MiddlewarePoller.Poll`. -/
inductive MWReach (cap : Nat) (f : Update → Bool × Update) : MWState → Prop where
  | init : MWReach cap f mwInit
  | step {s t : MWState} (hr : MWReach cap f s) (hs : MWStep cap f s t) : MWReach cap f t

lemma mwReach_inv (cap : Nat) (f : Update → Bool × Update) (s : MWState)
    (h : MWReach cap f s) :
    (s.stopConfirmClosed = true → s.inner ≠ InnerPhase.running) ∧
    (s.outer = OuterPhase.returned → s.stopConfirmClosed = true) ∧
    ((s.outer = OuterPhase.waiting ∨ s.outer = OuterPhase.returned) →
      s.stopPollerClosed = true) := by
  induction h with
  | init => simp [mwInit]
  | step hr hs ih =>
    cases hs with
    | envStop => exact ih
    | innerSend u hin hcap => exact ih
    | innerReturn hin =>
      refine ⟨fun _ => by simp, ih.2.1, ih.2.2⟩
    | innerConfirm hin =>
      refine ⟨fun _ => by simp, fun _ => rfl, ih.2.2⟩
    | outerStop hout hsig =>
      refine ⟨ih.1, fun hc => by simp at hc, fun _ => rfl⟩
    | outerRelay u rest hout hm => exact ih
    | outerReturn hout hconf =>
      exact ⟨ih.1, fun _ => hconf, fun _ => ih.2.2 (Or.inl hout)⟩

/-- C3: in every reachable configuration in which the outer
`MiddlewarePoller.Poll` call has returned, `stopPoller` was closed,
`stopConfirm` was closed, and — since `stopConfirm` is closed only by the
goroutine after `p.Poller.Poll` returns — the wrapped poller's `Poll` call has
already returned: the outer `Poll` never returns before the wrapped one. -/
theorem middleware_shutdown_handshake (cap : Nat) (f : Update → Bool × Update)
    (s : MWState) (h : MWReach cap f s) (hr : s.outer = OuterPhase.returned) :
    s.stopPollerClosed = true ∧ s.stopConfirmClosed = true ∧
    s.inner ≠ InnerPhase.running := by
  have hinv := mwReach_inv cap f s h
  have hc := hinv.2.1 hr
  exact ⟨hinv.2.2 (Or.inr hr), hc, hinv.1 hc⟩

/-- The configuration after a complete shutdown handshake. -/
def mwFinal : MWState :=
  { stopOuter := true
    stopPollerClosed := true
    stopConfirmClosed := true
    inner := InnerPhase.confirmClosed
    outer := OuterPhase.returned
    middle := []
    dest := [] }

/-- C3 witness: a concrete handshake run reaching an outer-returned
configuration, on which the theorem applies. -/
theorem middleware_shutdown_handshake_witness :
    MWReach 1 (pureFilter fun _ => true) mwFinal ∧
    mwFinal.stopPollerClosed = true ∧ mwFinal.inner ≠ InnerPhase.running := by
  have h0 : MWReach 1 (pureFilter fun _ => true) mwInit := MWReach.init
  have h1 := MWReach.step h0 (MWStep.envStop mwInit)
  have h2 := MWReach.step h1 (MWStep.outerStop _ rfl rfl)
  have h3 := MWReach.step h2 (MWStep.innerReturn _ rfl)
  have h4 := MWReach.step h3 (MWStep.innerConfirm _ rfl)
  have h5 := MWReach.step h4 (MWStep.outerReturn _ rfl rfl)
  have h6 : MWReach 1 (pureFilter fun _ => true) mwFinal := h5
  have hth := middleware_shutdown_handshake 1 (pureFilter fun _ => true) mwFinal h6 rfl
  exact ⟨h6, hth.1, hth.2.2⟩

lemma relayRun_pure (p : Update → Bool) (l : List Update) :
    relayRun (pureFilter p) l = l.filter p := by
  induction l with
  | nil => rfl
  | cons u rest ih =>
    by_cases hp : p u = true
    · simp [relayRun, relayStep, pureFilter, hp, List.filter, ih]
    · simp only [Bool.not_eq_true] at hp
      simp [relayRun, relayStep, pureFilter, hp, List.filter, ih]

/-- C6: the relay loop forwards an item to `dest` exactly when the predicate
returns true on it (the forwarded stream is the predicate-filtered stream);
an always-false predicate forwards nothing for any input stream, also
end-to-end over a wrapped `LongPoller` run, and under it every step of the
interleaved semantics — the wrapped poller's progress included — leaves the
`dest` trace unchanged. -/
theorem middleware_predicate_filtering :
    (∀ (p : Update → Bool) (l : List Update), relayRun (pureFilter p) l = l.filter p) ∧
    (∀ l : List Update, relayRun (pureFilter fun _ => false) l = []) ∧
    (∀ (flag : Nat → Bool) (n : Int) (evs : List PollEvent),
      middlewareOutput (fun _ => false) flag n evs = []) ∧
    (∀ (cap : Nat) (s t : MWState),
      MWStep cap (pureFilter fun _ => false) s t → t.dest = s.dest) := by
  have hfalse : ∀ l : List Update, relayRun (pureFilter fun _ => false) l = [] := by
    intro l
    rw [relayRun_pure]
    simp
  refine ⟨relayRun_pure, hfalse, fun flag n evs => hfalse _, ?_⟩
  intro cap s t hs
  cases hs with
  | envStop => rfl
  | innerSend u hin hcap => rfl
  | innerReturn hin => rfl
  | innerConfirm hin => rfl
  | outerStop hout hsig => rfl
  | outerRelay u rest hout hm => simp [relayStep, pureFilter]
  | outerReturn hout hconf => rfl

/-- C6 witness: a concrete predicate keeps exactly the matching item, and a
concrete step under the always-false predicate leaves `dest` unchanged. -/
theorem middleware_predicate_filtering_witness :
    relayRun (pureFilter fun u => decide (u.id = 1)) [⟨1, 0⟩, ⟨2, 0⟩] = [⟨1, 0⟩] ∧
    relayRun (pureFilter fun _ => false) [⟨1, 0⟩, ⟨2, 0⟩] = [] ∧
    ({ mwInit with stopOuter := true } : MWState).dest = mwInit.dest := by
  refine ⟨?_, middleware_predicate_filtering.2.1 _, ?_⟩
  · exact (middleware_predicate_filtering.1 _ _).trans (by decide)
  · exact middleware_predicate_filtering.2.2.2 1 mwInit _ (MWStep.envStop mwInit)

/-- C7: with an always-true predicate the relay loop is the identity on the
stream — same updates, same ids, same order — and this persists through any
number `m` of nested `MiddlewarePoller` stages; end-to-end, wrapping a
`LongPoller` run changes nothing about what reaches the destination. -/
theorem middleware_true_transparent :
    (∀ l : List Update, relayRun (pureFilter fun _ => true) l = l) ∧
    (∀ (m : Nat) (l : List Update), (relayRun (pureFilter fun _ => true))^[m] l = l) ∧
    (∀ (flag : Nat → Bool) (n : Int) (evs : List PollEvent),
      middlewareOutput (fun _ => true) flag n evs
        = destStream (pollLoop flag (initPollState n) evs).1) := by
  have h1 : ∀ l : List Update, relayRun (pureFilter fun _ => true) l = l := by
    intro l
    rw [relayRun_pure]
    simp
  refine ⟨h1, ?_, fun flag n evs => h1 _⟩
  intro m
  induction m with
  | zero => intro l; rfl
  | succ m ih =>
    intro l
    rw [Function.iterate_succ_apply, h1, ih]

/-- C9: the filter is called on the relay loop's local copy of the update, and
when it returns true the value sent to `dest` is the copy as the filter left
it — the mutated value, not the value that arrived on the relay channel. -/
theorem middleware_filter_mutation (f : Update → Bool × Update) (u v : Update)
    (rest : List Update) (h : f u = (true, v)) :
    relayRun f (u :: rest) = v :: relayRun f rest := by
  have hs : relayStep f u = some v := by
    simp [relayStep, h]
  simp [relayRun, hs]

/-- C9 witness: a filter that increments the payload and accepts; the
incremented copy is what reaches the destination. -/
theorem middleware_filter_mutation_witness :
    relayRun (fun w => (true, { w with payload := w.payload + 1 })) [⟨1, 0⟩] = [⟨1, 1⟩] := by
  have h := middleware_filter_mutation
    (fun w => (true, { w with payload := w.payload + 1 })) ⟨1, 0⟩ ⟨1, 1⟩ [] rfl
  exact h.trans rfl

/-- Lowercase hexadecimal digit, as Go's JSON encoder uses in \u escapes. -/
def hexDigit (n : Nat) : Char :=
  if n < 10 then Char.ofNat (48 + n) else Char.ofNat (87 + n)

/-- Go `encoding/json` escaping of one character inside a quoted string, with
the encoder's default HTML escaping: `"` and backslash get two-character
escapes; newline, carriage return and tab get their short forms; `<`, `>`,
`&` become <, >, &; other control characters become \u00XX;
U+2028 and U+2029 are escaped; everything else passes through unchanged. -/
def goEscapeChar (c : Char) : String :=
  if c = '"' then "\\\""
  else if c = '\\' then "\\\\"
  else if c = '\n' then "\\n"
  else if c = '\r' then "\\r"
  else if c = '\t' then "\\t"
  else if c = '<' then "\\u003c"
  else if c = '>' then "\\u003e"
  else if c = '&' then "\\u0026"
  else if c.toNat < 32 then
    String.mk ['\\', 'u', '0', '0', hexDigit (c.toNat / 16), hexDigit (c.toNat % 16)]
  else if c.toNat = 8232 then "\\u2028"
  else if c.toNat = 8233 then "\\u2029"
  else String.singleton c

/-- Go `json.Marshal` of one string value: a quoted, escaped string. -/
def goQuote (s : String) : String :=
  "\"" ++ String.join (s.data.map goEscapeChar) ++ "\""

/-- Go `json.Marshal` of a non-nil `[]string`: a compact JSON array literal
with no inserted whitespace. -/
def goMarshalStrings (l : List String) : String :=
  "[" ++ String.intercalate "," (l.map goQuote) ++ "]"

/-- `bytes.ReplaceAll(b, []byte of backslash, empty)`: remove every backslash
character from the text. -/
def stripBackslashes (s : String) : String :=
  String.mk (s.data.filter fun c => c != '\\')

/-- Whether the text contains a backslash character. -/
def hasBackslash (s : String) : Bool :=
  s.data.any fun c => c == '\\'

/-- `AllowedUpdates` from `poller.go` is a `[]string`. -/
abbrev AllowedUpdates := List String

/-- `DefaultAllowedUpdates` from `poller.go`: the fixed ordered default list
of update-category names. -/
def DefaultAllowedUpdates : AllowedUpdates :=
  ["edited_message", "channel_post", "edited_channel_post", "inline_query",
   "chosen_inline_result", "callback_query", "shipping_query",
   "pre_checkout_query", "poll", "poll_answer"]

/-- `AllowedUpdates.Add`: value-semantics append returning the new value. -/
def AllowedUpdates.Add (u : AllowedUpdates) (updates : List String) : AllowedUpdates :=
  u ++ updates

/-- `AllowedUpdates.String`: `json.Marshal` the slice, then delete every
backslash byte from the marshalled text. -/
def AllowedUpdates.String (u : AllowedUpdates) : String :=
  stripBackslashes (goMarshalStrings u)

lemma hasBackslash_strip (s : String) : hasBackslash (stripBackslashes s) = false := by
  have h : ∀ l : List Char, ((l.filter fun c => c != '\\').any fun c => c == '\\') = false := by
    intro l
    induction l with
    | nil => rfl
    | cons c rest ih =>
      by_cases hc : c = '\\'
      · simp [List.filter, hc, ih]
      · have hb : (c != '\\') = true := by simp [hc]
        simp [List.filter, hb, ih, hc]
  exact h s.data

set_option maxRecDepth 8192 in
/-- C8: `AllowedUpdates.String` renders the collection as a compact JSON
array-literal text with every backslash removed; in particular the default
ten category names with `"foo"` appended serialize to the single array
literal below, in order, and no serialization output ever contains a
backslash character. -/
theorem allowed_updates_serialization :
    AllowedUpdates.String (AllowedUpdates.Add DefaultAllowedUpdates ["foo"])
      = "[\"edited_message\",\"channel_post\",\"edited_channel_post\",\"inline_query\",\"chosen_inline_result\",\"callback_query\",\"shipping_query\",\"pre_checkout_query\",\"poll\",\"poll_answer\",\"foo\"]" ∧
    ∀ u : AllowedUpdates, hasBackslash (AllowedUpdates.String u) = false := by
  refine ⟨rfl, fun u => hasBackslash_strip (goMarshalStrings u)⟩

/-- `ReactionType` from `message_reaction.go`; Go's zero value for a string
field is the empty string.  The Go field `Type` is rendered `type_` because
`Type` is reserved in Lean. -/
structure ReactionType where
  type_ : String
  emoji : String
  customEmojiID : String
deriving Repr, DecidableEq

/-- `New` from `message_reaction.go`: a struct literal setting only the
`Emoji` field, which leaves `Type` and `CustomEmojiID` at the zero value. -/
def New (emoji : String) : ReactionType :=
  { type_ := "", emoji := emoji, customEmojiID := "" }

/-- C10: for every emoji string, `New` returns a `ReactionType` whose `Emoji`
field is that string and whose `Type` and `CustomEmojiID` fields are both
empty — no reaction-kind tag is populated. -/
theorem new_reaction_fields (emoji : String) :
    (New emoji).type_ = "" ∧ (New emoji).emoji = emoji ∧
    (New emoji).customEmojiID = "" :=
  ⟨rfl, rfl, rfl⟩

end Telebot
